import Mathlib

/-!
Verification of the `RedString` dynamic UTF-8 string buffer (`src/lib.rs` of
`redrs`): a growable byte buffer whose content is UTF-8 text, with
codepoint-aware mutation (`push`, `push_str`, `insert`, `insert_str`,
`remove`, `pop`, `clear`) and a one-shot ownership-transferring conversion
into a foreign (Ruby) string.

The shallow embedding below models bytes as `Nat` (each value below 256 on
the paths exercised), the buffer as a list of bytes plus a capacity, and
panics/aborts as `Option.none`.  Machine-level details that the claims do
not depend on (the exact amortized growth factor of `Vec::reserve`, the raw
pointer arithmetic realizing the splices) are modelled by their guaranteed
functional effect: `reserve` yields a capacity at least the required length,
and the two `ptr::copy` splices yield the corresponding `take`/`drop`
decompositions of the byte list.
-/

namespace Redrs

/-- Number of bytes in the UTF-8 encoding of a scalar value; mirrors Rust's
`char::len_utf8` as used by `push`, `insert` and `remove`. -/
def utf8Len (c : Char) : Nat :=
  if c.toNat < 0x80 then 1
  else if c.toNat < 0x800 then 2
  else if c.toNat < 0x10000 then 3
  else 4

/-- UTF-8 encoding of one scalar value; mirrors Rust's `char::encode_utf8`
(the shift-and-mask arithmetic of the Rust implementation is written with
division and remainder: `v >> k` is `v / 2^k`, `v & (2^k - 1)` is
`v % 2^k`, and `lor` of disjoint bit ranges is `+`). -/
def encodeChar (c : Char) : List Nat :=
  let v := c.toNat
  if v < 0x80 then [v]
  else if v < 0x800 then [0xC0 + v / 0x40, 0x80 + v % 0x40]
  else if v < 0x10000 then
    [0xE0 + v / 0x1000, 0x80 + v / 0x40 % 0x40, 0x80 + v % 0x40]
  else
    [0xF0 + v / 0x40000, 0x80 + v / 0x1000 % 0x40, 0x80 + v / 0x40 % 0x40,
      0x80 + v % 0x40]

/-- Byte representation of a Rust `&str`: the concatenation of the UTF-8
encodings of its scalar values.  Rust `&str` values are modelled as
`List Char`. -/
def encodeStr : List Char → List Nat
  | [] => []
  | c :: cs => encodeChar c ++ encodeStr cs

/-- The `RedString` buffer: the valid byte region `[0, length)` of the
backing `Vec<u8, RubyAllocator>` (`data`), and the capacity of that vector
(`cap`).  `len` of the Rust struct is `data.length`. -/
structure RedString where
  data : List Nat
  cap : Nat
deriving DecidableEq

/-- Capacity after an operation that requires room for `needed` bytes in
total: `Vec::reserve`/`Vec::push` guarantee a capacity of at least the
required length and never shrink; the model takes the minimal guaranteed
capacity. -/
def growCap (cap needed : Nat) : Nat := max cap needed

/-- Decoding of the first scalar value of a byte sequence: value and number
of bytes consumed.  Mirrors `core::str::next_code_point`, the decoder
behind `str::chars`, which assumes its input is valid UTF-8: it masks bits
but performs no validation, so on invalid input it returns the same
garbage the Rust routine computes; it is `none` only where the byte
iterator is exhausted (where the Rust routine returns `None` or reads
past the slice). -/
def decodeOne : List Nat → Option (Nat × Nat)
  | [] => none
  | x :: rest =>
    if x < 0x80 then some (x, 1)
    else
      match rest with
      | [] => none
      | y :: rest2 =>
        if x < 0xE0 then some ((x % 0x20) * 0x40 + y % 0x40, 2)
        else
          match rest2 with
          | [] => none
          | z :: rest3 =>
            if x < 0xF0 then
              some ((x % 0x20) * 0x1000 + (y % 0x40) * 0x40 + z % 0x40, 3)
            else
              match rest3 with
              | [] => none
              | w :: _ =>
                some (((x % 0x20) % 8) * 0x40000
                  + ((y % 0x40) * 0x40 + z % 0x40) * 0x40 + w % 0x40, 4)

/-- Fuel-indexed full decoding of a byte sequence into its scalar values,
iterating `decodeOne` as `str::chars` does; the fuel only serves
termination and is immaterial once it is at least the number of scalars. -/
def decodeUtf8Fuel : Nat → List Nat → Option (List Char)
  | _, [] => some []
  | 0, _ :: _ => none
  | fuel + 1, x :: rest =>
    match decodeOne (x :: rest) with
    | none => none
    | some (v, k) =>
      match decodeUtf8Fuel fuel ((x :: rest).drop k) with
      | none => none
      | some cs => some (Char.ofNat v :: cs)

/-- Full decoding of a byte sequence into its scalar values: the sequence
of characters produced by `str::chars` over the buffer content. -/
def decodeUtf8 (bytes : List Nat) : Option (List Char) :=
  decodeUtf8Fuel bytes.length bytes

/-- Byte-level char-boundary test; mirrors `str::is_char_boundary`, the
check performed by the slicing `self[idx..]` inside `remove`: the start,
the end, or a byte that is not a UTF-8 continuation byte. -/
def is_char_boundary (bytes : List Nat) (idx : Nat) : Bool :=
  if idx = 0 then true
  else
    match bytes[idx]? with
    | none => idx == bytes.length
    | some b => decide (b < 0x80) || decide (0xC0 ≤ b)

namespace RedString

/-- Mirrors `RedString::new`: zero length, zero capacity. -/
def new : RedString := ⟨[], 0⟩

/-- Mirrors `RedString::with_capacity`. -/
def with_capacity (n : Nat) : RedString := ⟨[], n⟩

/-- Mirrors `RedString::push_str`: `extend_from_slice` of the byte
representation of `s`, growing capacity as needed. -/
def push_str (s : RedString) (str : List Char) : RedString :=
  { data := s.data ++ encodeStr str
    cap := growCap s.cap (s.data.length + (encodeStr str).length) }

/-- Mirrors `RedString::from_str`: `with_capacity(s.len())` followed by
`push_str(s)` (`s.len()` is the byte length of the `&str`). -/
def from_str (str : List Char) : RedString :=
  (with_capacity (encodeStr str).length).push_str str

/-- Mirrors `RedString::push`: a one-byte scalar is pushed as a single byte
(`c as u8`), a longer one is encoded into a stack buffer and appended via
`extend_from_slice`. -/
def push (s : RedString) (c : Char) : RedString :=
  match utf8Len c with
  | 1 => { data := s.data ++ [c.toNat], cap := growCap s.cap (s.data.length + 1) }
  | _ =>
    { data := s.data ++ encodeChar c
      cap := growCap s.cap (s.data.length + (encodeChar c).length) }

/-- Mirrors `RedString::clear`: `Vec::clear` sets the length to zero and
keeps the allocation, so the capacity is unchanged. -/
def clear (s : RedString) : RedString := { s with data := [] }

/-- Mirrors `RedString::len`. -/
def len (s : RedString) : Nat := s.data.length

/-- Mirrors `RedString::as_str` (`str::from_utf8_unchecked` over the valid
region, read through `str::chars`): on valid content it yields the scalar
sequence; the unchecked Rust view is undefined on invalid content. -/
def as_str (s : RedString) : Option (List Char) := decodeUtf8 s.data

/-- Mirrors the unsafe `RedString::insert_bytes`: `reserve(amt)`, shift the
suffix `[idx, len)` right by `amt` with `ptr::copy`, copy `bytes` into the
gap, `set_len(len + amt)`.  The function performs no char-boundary check.
For `idx > len` the expression `len - idx` underflows `usize` (a panic
under overflow checks, undefined behaviour otherwise), modelled as `none`. -/
def insert_bytes (s : RedString) (idx : Nat) (bytes : List Nat) :
    Option RedString :=
  if idx ≤ s.data.length then
    some { data := s.data.take idx ++ bytes ++ s.data.drop idx
           cap := growCap s.cap (s.data.length + bytes.length) }
  else none

/-- Mirrors `RedString::insert`: `insert_bytes(idx, encode_utf8(c))`. -/
def insert (s : RedString) (idx : Nat) (c : Char) : Option RedString :=
  s.insert_bytes idx (encodeChar c)

/-- Mirrors `RedString::insert_str`: `insert_bytes(idx, s.as_bytes())`. -/
def insert_str (s : RedString) (idx : Nat) (str : List Char) :
    Option RedString :=
  s.insert_bytes idx (encodeStr str)

/-- Mirrors `RedString::remove`: `self[idx..]` panics unless `idx` is a
char boundary at most the length (`none`); `chars().next()` on the empty
suffix is `None`, triggering the explicit panic
`cannot remove a char from the end of a string` (`none`); otherwise the
decoded scalar `ch` is returned and the suffix after `idx + ch.len_utf8()`
is shifted down onto `idx`, shrinking the length accordingly. -/
def remove (s : RedString) (idx : Nat) : Option (Char × RedString) :=
  if is_char_boundary s.data idx then
    match decodeOne (s.data.drop idx) with
    | none => none
    | some (v, _) =>
      let ch := Char.ofNat v
      some (ch, { s with data := s.data.take idx ++ s.data.drop (idx + utf8Len ch) })
  else none

/-- Last scalar value of the content: models `self.chars().rev().next()`
in `pop` through the full decoding (on content produced by `encodeStr`
the backward decoder of `str::chars().rev()` yields exactly the last
scalar of the decoded sequence). -/
def lastChar (bytes : List Nat) : Option Char :=
  (decodeUtf8 bytes).bind List.getLast?

/-- Mirrors `RedString::pop`: `None` on empty content with the buffer
untouched (the `?` operator returns before `set_len`); otherwise the last
scalar is returned and the length truncated by its encoded byte count. -/
def pop (s : RedString) : Option Char × RedString :=
  match lastChar s.data with
  | none => (none, s)
  | some ch =>
    (some ch, { s with data := s.data.take (s.data.length - utf8Len ch) })

end RedString

/-- Largest value of the foreign runtime's native length type: the second
argument of `rb_utf8_str_new` is a C `long`, an `i64` on the 64-bit
platforms this crate targets, so `usize::try_into::<c_long>()` succeeds
exactly for lengths up to `i64::MAX`. -/
def c_long_max : Nat := 2 ^ 63 - 1

/-- Opaque foreign string handle, identified by its byte content. -/
structure RString where
  content : List Nat
deriving DecidableEq

/-- Modelled from the spec: `rb_utf8_str_new`, the foreign string
constructor, is not part of this repository's sources.  Spec §1 describes
the foreign string collaborator as "a capability that accepts a UTF-8 byte
pointer and length and returns an opaque handle, taking ownership of that
memory": the returned handle carries exactly the bytes passed in, and the
accompanying flag records that the foreign side has become responsible for
the final release of the buffer's memory. -/
def rb_utf8_str_new (bytes : List Nat) : RString × Bool :=
  (⟨bytes⟩, true)

/-- Outcome of the ownership-transferring conversion: the foreign handle,
whether the foreign side releases the buffer's backing memory, and
whether the buffer's own release path (its destructor) still runs. -/
structure TransferOutcome where
  handle : RString
  foreignReleases : Bool
  ownReleases : Bool
deriving DecidableEq

/-- Number of times the buffer's backing memory is released: once by the
foreign side if it took ownership, once by the buffer's own destructor if
that destructor still runs. -/
def releaseCount (t : TransferOutcome) : Nat :=
  (if t.foreignReleases then 1 else 0) + (if t.ownReleases then 1 else 0)

/-- Mirrors `RedString::into_rstring`: the byte length is converted to the
foreign length type with `try_into().unwrap()` (a panic — `none` — when it
exceeds `c_long_max`), the buffer and length are passed to
`rb_utf8_str_new`, and `mem::forget(self)` disarms the buffer's own
destructor, so its release path never runs. -/
def into_rstring (s : RedString) : Option TransferOutcome :=
  if s.data.length ≤ c_long_max then
    let r := rb_utf8_str_new s.data
    some { handle := r.1, foreignReleases := r.2, ownReleases := false }
  else none

/-- Invariant I1 of the spec: the byte region is a valid, complete UTF-8
encoding of a sequence of Unicode scalar values. -/
def Utf8Valid (bytes : List Nat) : Prop :=
  ∃ cs : List Char, bytes = encodeStr cs

/-- Invariants I1 and I2 together: valid UTF-8 content and
`length ≤ capacity`. -/
def WF (s : RedString) : Prop :=
  Utf8Valid s.data ∧ s.data.length ≤ s.cap

/-- Scalar-value boundary at byte offset `idx` of a valid byte region:
`idx` splits the content between two complete scalar encodings (including
the start and the end of the content). -/
def IsBoundary (bytes : List Nat) (idx : Nat) : Prop :=
  ∃ cs1 cs2 : List Char,
    bytes = encodeStr cs1 ++ encodeStr cs2 ∧ idx = (encodeStr cs1).length

/-- One mutating operation of the buffer API. -/
inductive Op
  | push (c : Char)
  | pushStr (str : List Char)
  | insert (idx : Nat) (c : Char)
  | insertStr (idx : Nat) (str : List Char)
  | remove (idx : Nat)
  | pop

/-- Effect of one operation on the buffer; `none` models an aborted
(panicking) operation. -/
def applyOp (s : RedString) : Op → Option RedString
  | .push c => some (s.push c)
  | .pushStr str => some (s.push_str str)
  | .insert idx c => s.insert idx c
  | .insertStr idx str => s.insert_str idx str
  | .remove idx => (s.remove idx).map (·.2)
  | .pop => some (s.pop).2

/-- Effect of a sequence of operations, aborting at the first panic. -/
def applyOps : RedString → List Op → Option RedString
  | s, [] => some s
  | s, op :: ops =>
    match applyOp s op with
    | none => none
    | some s' => applyOps s' ops

/-- The index supplied to an operation respects scalar-value boundaries of
the current content: boundary for the insertions, boundary strictly inside
the content for `remove`; the other operations take no index. -/
def opBoundaryOk (s : RedString) : Op → Prop
  | .insert idx _ => IsBoundary s.data idx
  | .insertStr idx _ => IsBoundary s.data idx
  | .remove idx => IsBoundary s.data idx ∧ idx < s.data.length
  | _ => True

/-- Every index supplied along a run of the operation sequence is
boundary-respecting for the buffer state at which it is supplied. -/
def TraceOk : RedString → List Op → Prop
  | _, [] => True
  | s, op :: ops =>
    opBoundaryOk s op ∧
      match applyOp s op with
      | none => True
      | some s' => TraceOk s' ops

theorem char_toNat_lt (c : Char) : c.toNat < 0x110000 := by
  have h : Nat.isValidChar c.toNat := c.valid
  rcases h with h | ⟨_, h⟩ <;> omega

theorem encodeChar_length (c : Char) : (encodeChar c).length = utf8Len c := by
  by_cases h1 : c.toNat < 0x80
  · simp [encodeChar, utf8Len, h1]
  · by_cases h2 : c.toNat < 0x800
    · simp [encodeChar, utf8Len, h1, h2]
    · by_cases h3 : c.toNat < 0x10000
      · simp [encodeChar, utf8Len, h1, h2, h3]
      · simp [encodeChar, utf8Len, h1, h2, h3]

theorem utf8Len_pos (c : Char) : 0 < utf8Len c := by
  rw [utf8Len]
  split
  · omega
  · split
    · omega
    · split <;> omega

theorem encodeChar_head (c : Char) :
    ∃ b bs, encodeChar c = b :: bs ∧ (b < 0x80 ∨ 0xC0 ≤ b) := by
  by_cases h1 : c.toNat < 0x80
  · exact ⟨c.toNat, [], by simp [encodeChar, h1], Or.inl h1⟩
  · by_cases h2 : c.toNat < 0x800
    · exact ⟨0xC0 + c.toNat / 0x40, [0x80 + c.toNat % 0x40],
        by simp [encodeChar, h1, h2], Or.inr (by omega)⟩
    · by_cases h3 : c.toNat < 0x10000
      · exact ⟨0xE0 + c.toNat / 0x1000,
          [0x80 + c.toNat / 0x40 % 0x40, 0x80 + c.toNat % 0x40],
          by simp [encodeChar, h1, h2, h3], Or.inr (by omega)⟩
      · exact ⟨0xF0 + c.toNat / 0x40000,
          [0x80 + c.toNat / 0x1000 % 0x40, 0x80 + c.toNat / 0x40 % 0x40,
            0x80 + c.toNat % 0x40],
          by simp [encodeChar, h1, h2, h3], Or.inr (by omega)⟩

theorem encodeStr_append (l1 l2 : List Char) :
    encodeStr (l1 ++ l2) = encodeStr l1 ++ encodeStr l2 := by
  induction l1 with
  | nil => simp [encodeStr]
  | cons c cs ih => simp [encodeStr, ih]

theorem decodeOne_encodeChar (c : Char) (rest : List Nat) :
    decodeOne (encodeChar c ++ rest) = some (c.toNat, utf8Len c) := by
  have hlt := char_toNat_lt c
  by_cases h1 : c.toNat < 0x80
  · simp [encodeChar, utf8Len, h1, decodeOne]
  · by_cases h2 : c.toNat < 0x800
    · have hx1 : ¬ 0xC0 + c.toNat / 0x40 < 0x80 := by omega
      have hx2 : 0xC0 + c.toNat / 0x40 < 0xE0 := by omega
      simp only [encodeChar, utf8Len, h1, h2, if_true, if_false, ite_true, ite_false,
        List.cons_append, List.nil_append, decodeOne, hx1, hx2]
      simp only [if_neg hx1, if_pos hx2, Option.some.injEq, Prod.mk.injEq]
      constructor
      · omega
      · trivial
    · by_cases h3 : c.toNat < 0x10000
      · have hx1 : ¬ 0xE0 + c.toNat / 0x1000 < 0x80 := by omega
        have hx2 : ¬ 0xE0 + c.toNat / 0x1000 < 0xE0 := by omega
        have hx3 : 0xE0 + c.toNat / 0x1000 < 0xF0 := by omega
        simp only [encodeChar, utf8Len, h1, h2, h3, if_true, if_false, ite_true,
          ite_false, List.cons_append, List.nil_append, decodeOne]
        simp only [if_neg hx1, if_neg hx2, if_pos hx3, Option.some.injEq, Prod.mk.injEq]
        constructor
        · omega
        · trivial
      · have hx1 : ¬ 0xF0 + c.toNat / 0x40000 < 0x80 := by omega
        have hx2 : ¬ 0xF0 + c.toNat / 0x40000 < 0xE0 := by omega
        have hx3 : ¬ 0xF0 + c.toNat / 0x40000 < 0xF0 := by omega
        simp only [encodeChar, utf8Len, h1, h2, h3, if_true, if_false, ite_true,
          ite_false, List.cons_append, List.nil_append, decodeOne]
        simp only [if_neg hx1, if_neg hx2, if_neg hx3, Option.some.injEq, Prod.mk.injEq]
        constructor
        · omega
        · trivial

theorem decodeUtf8Fuel_encodeStr (cs : List Char) :
    ∀ fuel, cs.length ≤ fuel → decodeUtf8Fuel fuel (encodeStr cs) = some cs := by
  induction cs with
  | nil => intro fuel _; cases fuel <;> simp [encodeStr, decodeUtf8Fuel]
  | cons c cs ih =>
    intro fuel h
    cases fuel with
    | zero => simp at h
    | succ f =>
      obtain ⟨b, bs, hb, _⟩ := encodeChar_head c
      have hlist : encodeStr (c :: cs) = b :: (bs ++ encodeStr cs) := by
        rw [encodeStr, hb]
        simp
      rw [hlist]
      have hd : decodeOne (b :: (bs ++ encodeStr cs)) = some (c.toNat, utf8Len c) := by
        rw [← List.cons_append, ← hb]
        exact decodeOne_encodeChar c (encodeStr cs)
      have hdrop : (b :: (bs ++ encodeStr cs)).drop (utf8Len c) = encodeStr cs := by
        rw [← List.cons_append, ← hb, ← encodeChar_length c]
        simp
      simp only [decodeUtf8Fuel, hd, hdrop, ih f (by simpa using h), Char.ofNat_toNat]

theorem length_le_encodeStr (cs : List Char) :
    cs.length ≤ (encodeStr cs).length := by
  induction cs with
  | nil => simp [encodeStr]
  | cons c cs ih =>
    obtain ⟨b, bs, hb, _⟩ := encodeChar_head c
    rw [encodeStr, hb]
    simp only [List.cons_append, List.length_cons, List.length_append]
    omega

theorem decodeUtf8_encodeStr (cs : List Char) :
    decodeUtf8 (encodeStr cs) = some cs :=
  decodeUtf8Fuel_encodeStr cs (encodeStr cs).length (length_le_encodeStr cs)

theorem utf8Len_eq_one (c : Char) (h : utf8Len c = 1) : c.toNat < 0x80 := by
  by_cases h1 : c.toNat < 0x80
  · exact h1
  · exfalso
    rw [utf8Len] at h
    by_cases h2 : c.toNat < 0x800 <;> by_cases h3 : c.toNat < 0x10000 <;>
      simp [h1, h2, h3] at h

theorem push_eq (s : RedString) (c : Char) :
    s.push c =
      ⟨s.data ++ encodeChar c, growCap s.cap (s.data.length + utf8Len c)⟩ := by
  rw [RedString.push]
  split
  · next h =>
    have hlt : c.toNat < 0x80 := utf8Len_eq_one c h
    rw [h]
    simp [encodeChar, hlt]
  · next h =>
    rw [encodeChar_length]

theorem push_str_eq (s : RedString) (str : List Char) :
    s.push_str str =
      ⟨s.data ++ encodeStr str,
        growCap s.cap (s.data.length + (encodeStr str).length)⟩ := rfl

theorem insert_eq (s : RedString) (cs1 cs2 : List Char) (c : Char)
    (h : s.data = encodeStr cs1 ++ encodeStr cs2) :
    s.insert (encodeStr cs1).length c =
      some ⟨encodeStr cs1 ++ encodeChar c ++ encodeStr cs2,
        growCap s.cap (s.data.length + utf8Len c)⟩ := by
  rw [RedString.insert, RedString.insert_bytes, encodeChar_length]
  rw [if_pos (by rw [h]; simp)]
  rw [h]
  simp

theorem insert_str_eq (s : RedString) (cs1 cs2 str : List Char)
    (h : s.data = encodeStr cs1 ++ encodeStr cs2) :
    s.insert_str (encodeStr cs1).length str =
      some ⟨encodeStr cs1 ++ encodeStr str ++ encodeStr cs2,
        growCap s.cap (s.data.length + (encodeStr str).length)⟩ := by
  rw [RedString.insert_str, RedString.insert_bytes]
  rw [if_pos (by rw [h]; simp)]
  rw [h]
  simp

theorem is_char_boundary_append (cs1 : List Char) (c : Char) (rest : List Nat) :
    is_char_boundary (encodeStr cs1 ++ (encodeChar c ++ rest))
      (encodeStr cs1).length = true := by
  obtain ⟨b, bs, hb, hprop⟩ := encodeChar_head c
  rw [is_char_boundary]
  split
  · rfl
  · have hget : (encodeStr cs1 ++ (encodeChar c ++ rest))[(encodeStr cs1).length]?
        = some b := by
      rw [List.getElem?_append_right (Nat.le_refl _)]
      simp [hb]
    rw [hget]
    rcases hprop with h | h <;> simp [h]

theorem remove_eq (s : RedString) (cs1 : List Char) (c : Char) (cs2 : List Char)
    (h : s.data = encodeStr cs1 ++ encodeStr (c :: cs2)) :
    s.remove (encodeStr cs1).length =
      some (c, ⟨encodeStr cs1 ++ encodeStr cs2, s.cap⟩) := by
  have hshape : s.data = encodeStr cs1 ++ (encodeChar c ++ encodeStr cs2) := by
    rw [h, encodeStr]
  rw [RedString.remove, hshape]
  rw [if_pos (is_char_boundary_append cs1 c (encodeStr cs2))]
  have hdrop : (encodeStr cs1 ++ (encodeChar c ++ encodeStr cs2)).drop
      (encodeStr cs1).length = encodeChar c ++ encodeStr cs2 := by
    simp
  rw [hdrop, decodeOne_encodeChar]
  simp only [Char.ofNat_toNat, Option.some.injEq, Prod.mk.injEq]
  refine ⟨trivial, ?_⟩
  have htake : (encodeStr cs1 ++ (encodeChar c ++ encodeStr cs2)).take
      (encodeStr cs1).length = encodeStr cs1 := by
    simp
  have hdrop2 : (encodeStr cs1 ++ (encodeChar c ++ encodeStr cs2)).drop
      ((encodeStr cs1).length + utf8Len c) = encodeStr cs2 := by
    rw [← List.append_assoc, ← encodeChar_length c, ← List.length_append]
    simp
  rw [htake, hdrop2]

theorem pop_eq_concat (s : RedString) (cs : List Char) (c : Char)
    (h : s.data = encodeStr (cs ++ [c])) :
    s.pop = (some c, ⟨encodeStr cs, s.cap⟩) := by
  have hshape : s.data = encodeStr cs ++ encodeChar c := by
    rw [h, encodeStr_append, encodeStr, encodeStr, List.append_nil]
  have hlast : RedString.lastChar s.data = some c := by
    rw [RedString.lastChar, h, decodeUtf8_encodeStr]
    simp
  rw [RedString.pop, hlast]
  simp only [Prod.mk.injEq, true_and]
  have hlen : s.data.length - utf8Len c = (encodeStr cs).length := by
    rw [hshape, List.length_append, encodeChar_length]
    omega
  rw [hlen, hshape]
  simp

theorem pop_eq_nil (s : RedString) (h : s.data = []) : s.pop = (none, s) := by
  have hlast : RedString.lastChar s.data = none := by
    rw [RedString.lastChar, h]
    simp [decodeUtf8, decodeUtf8Fuel]
  rw [RedString.pop, hlast]

theorem push_wf (s : RedString) (c : Char) (h : WF s) : WF (s.push c) := by
  obtain ⟨⟨cs, hdata⟩, hlen⟩ := h
  rw [push_eq]
  constructor
  · exact ⟨cs ++ [c], by
      rw [encodeStr_append, hdata, encodeStr, encodeStr, List.append_nil]⟩
  · simp only [List.length_append, encodeChar_length, growCap]
    omega

theorem push_str_wf (s : RedString) (str : List Char) (h : WF s) :
    WF (s.push_str str) := by
  obtain ⟨⟨cs, hdata⟩, hlen⟩ := h
  rw [push_str_eq]
  constructor
  · exact ⟨cs ++ str, by rw [encodeStr_append, hdata]⟩
  · simp only [List.length_append, growCap]
    omega

theorem applyOp_wf (s : RedString) (op : Op) (hwf : WF s)
    (hok : opBoundaryOk s op) :
    ∃ s', applyOp s op = some s' ∧ WF s' := by
  cases op with
  | push c => exact ⟨s.push c, rfl, push_wf s c hwf⟩
  | pushStr str => exact ⟨s.push_str str, rfl, push_str_wf s str hwf⟩
  | insert idx c =>
    obtain ⟨cs1, cs2, hdata, hidx⟩ := hok
    subst hidx
    refine ⟨_, insert_eq s cs1 cs2 c hdata, ?_, ?_⟩
    · exact ⟨cs1 ++ c :: cs2, by
        rw [encodeStr_append, encodeStr, List.append_assoc]⟩
    · simp only [List.length_append, encodeChar_length, growCap, hdata]
      omega
  | insertStr idx str =>
    obtain ⟨cs1, cs2, hdata, hidx⟩ := hok
    subst hidx
    refine ⟨_, insert_str_eq s cs1 cs2 str hdata, ?_, ?_⟩
    · exact ⟨cs1 ++ str ++ cs2, by rw [encodeStr_append, encodeStr_append]⟩
    · simp only [List.length_append, growCap, hdata]
      omega
  | remove idx =>
    obtain ⟨⟨cs1, cs2, hdata, hidx⟩, hlt⟩ := hok
    subst hidx
    cases cs2 with
    | nil =>
      exfalso
      rw [hdata, encodeStr, List.append_nil] at hlt
      omega
    | cons c cs2 =>
      refine ⟨⟨encodeStr cs1 ++ encodeStr cs2, s.cap⟩, ?_, ?_, ?_⟩
      · rw [applyOp, remove_eq s cs1 c cs2 hdata]
        rfl
      · exact ⟨cs1 ++ cs2, by rw [encodeStr_append]⟩
      · have hle : s.data.length ≤ s.cap := hwf.2
        rw [hdata, encodeStr] at hle
        obtain ⟨b, bs, hb, _⟩ := encodeChar_head c
        simp only [List.length_append] at hle ⊢
        rw [hb] at hle
        simp only [List.cons_append, List.length_cons, List.length_append] at hle
        omega
  | pop =>
    obtain ⟨⟨cs, hdata⟩, hlen⟩ := hwf
    rcases List.eq_nil_or_concat cs with hnil | ⟨cs', c, hconcat⟩
    · subst hnil
      rw [encodeStr] at hdata
      refine ⟨s, ?_, ⟨[], hdata⟩, hlen⟩
      rw [applyOp, pop_eq_nil s hdata]
    · have hconcat' : cs = cs' ++ [c] := by simpa using hconcat
      subst hconcat'
      refine ⟨⟨encodeStr cs', s.cap⟩, ?_, ⟨cs', rfl⟩, ?_⟩
      · rw [applyOp, pop_eq_concat s cs' c hdata]
      · rw [hdata, encodeStr_append] at hlen
        simp only [List.length_append] at hlen ⊢
        omega

theorem applyOps_wf (ops : List Op) :
    ∀ s, WF s → TraceOk s ops → ∃ s', applyOps s ops = some s' ∧ WF s' := by
  induction ops with
  | nil => exact fun s hwf _ => ⟨s, rfl, hwf⟩
  | cons op ops ih =>
    intro s hwf htr
    obtain ⟨hok, hrest⟩ := htr
    obtain ⟨s1, hstep, hwf1⟩ := applyOp_wf s op hwf hok
    rw [hstep] at hrest
    obtain ⟨s', hrun, hwf'⟩ := ih s1 hwf1 hrest
    refine ⟨s', ?_, hwf'⟩
    simp only [applyOps, hstep]
    exact hrun

/-- C1: the ownership-transfer conversion applied to `from_str("abc")`
yields a foreign string handle whose content equals `"abc"`, and the
buffer's backing memory ends up released exactly once (the foreign side
holds the single release responsibility; the buffer's own release path is
disarmed by `mem::forget`). -/
theorem into_rstring_from_str_abc :
    ∃ t, into_rstring (RedString.from_str ['a', 'b', 'c']) = some t ∧
      decodeUtf8 t.handle.content = some ['a', 'b', 'c'] ∧
      t.handle.content = encodeStr ['a', 'b', 'c'] ∧
      releaseCount t = 1 := by
  refine ⟨⟨⟨[97, 98, 99]⟩, true, false⟩, by decide, by decide, by decide, rfl⟩

/-- C2: for every sequence of `push`, `push_str`, `insert`, `insert_str`,
`remove` and `pop` operations in which every supplied index is a
scalar-value boundary within the current content, every call succeeds and
after every call the buffer satisfies `length ≤ capacity` with the byte
region a valid, complete UTF-8 encoding (the quantification over all
operation lists covers every prefix of a run, hence the state after every
call). -/
theorem mutation_sequences_preserve_invariants (ops : List Op)
    (s : RedString) (hwf : WF s) (htr : TraceOk s ops) :
    ∃ s', applyOps s ops = some s' ∧ WF s' :=
  applyOps_wf ops s hwf htr

/-- Witness for C2: a concrete run from `from_str("a")` through a push, a
boundary insert, a boundary remove and a pop, ending in a well-formed
state. -/
theorem mutation_sequences_preserve_invariants_witness :
    ∃ s', applyOps (RedString.from_str ['a'])
      [Op.push 'b', Op.insert 1 'x', Op.remove 0, Op.pop] = some s' ∧
      WF s' := by
  refine mutation_sequences_preserve_invariants _ _ ⟨⟨['a'], by decide⟩, by decide⟩ ?_
  refine ⟨trivial, ⟨⟨['a'], ['b'], by decide, by decide⟩, ?_⟩⟩
  refine ⟨⟨⟨[], ['a', 'x', 'b'], by decide, by decide⟩, by decide⟩, ?_⟩
  exact ⟨trivial, trivial⟩

/-- C3: for every valid UTF-8 string `s` (the quantification over all
scalar-value sequences covers the empty string and strings containing 1-,
2-, 3- and 4-byte encoded scalars), `from_str(s)` followed by the
read-only view `as_str` yields exactly `s`. -/
theorem from_str_as_str_roundtrip (str : List Char) :
    (RedString.from_str str).as_str = some str := by
  have hdata : (RedString.from_str str).data = encodeStr str := by
    simp [RedString.from_str, RedString.push_str, RedString.with_capacity]
  rw [RedString.as_str, hdata, decodeUtf8_encodeStr]

/-- C4: for every buffer whose content is valid UTF-8 and every boundary
byte index `idx` of that content (`IsBoundary` carries both: it decomposes
the content into two complete scalar encodings around `idx`), and every
scalar value `c`, `insert(idx, c)` followed by `remove(idx)` succeeds,
the remove returns `c`, and the original content and length are
restored. -/
theorem insert_remove_inverse (s : RedString) (idx : Nat) (c : Char)
    (h : IsBoundary s.data idx) :
    ∃ s' s'', s.insert idx c = some s' ∧ s'.remove idx = some (c, s'') ∧
      s''.data = s.data ∧ s''.len = s.len := by
  obtain ⟨cs1, cs2, hdata, hidx⟩ := h
  subst hidx
  have h1 := insert_eq s cs1 cs2 c hdata
  have h2 := remove_eq
    (⟨encodeStr cs1 ++ encodeChar c ++ encodeStr cs2,
      growCap s.cap (s.data.length + utf8Len c)⟩ : RedString)
    cs1 c cs2 (by rw [encodeStr, List.append_assoc])
  refine ⟨_, _, h1, h2, hdata.symm, ?_⟩
  rw [RedString.len, RedString.len, hdata]

/-- Witness for C4: inserting `'x'` at boundary index 1 of `from_str("ab")`
and removing it again restores the buffer. -/
theorem insert_remove_inverse_witness :
    ∃ s' s'', (RedString.from_str ['a', 'b']).insert 1 'x' = some s' ∧
      s'.remove 1 = some ('x', s'') ∧
      s''.data = (RedString.from_str ['a', 'b']).data ∧
      s''.len = (RedString.from_str ['a', 'b']).len :=
  insert_remove_inverse (RedString.from_str ['a', 'b']) 1 'x'
    ⟨['a'], ['b'], by decide, by decide⟩

/-- C5: for every buffer with valid UTF-8 content and every scalar value
`c`, `push(c)` followed by `pop()` returns `Some(c)` and restores the
buffer's prior content and length. -/
theorem push_pop_inverse (s : RedString) (c : Char) (h : Utf8Valid s.data) :
    ((s.push c).pop).1 = some c ∧ ((s.push c).pop).2.data = s.data ∧
      ((s.push c).pop).2.len = s.len := by
  obtain ⟨cs, hdata⟩ := h
  have h2 : (s.push c).pop = (some c, ⟨encodeStr cs, (s.push c).cap⟩) := by
    refine pop_eq_concat (s.push c) cs c ?_
    rw [push_eq, encodeStr_append, hdata, encodeStr, encodeStr, List.append_nil]
  rw [h2]
  exact ⟨rfl, hdata.symm, by rw [RedString.len, RedString.len, hdata]⟩

/-- Witness for C5: pushing the three-byte scalar `'€'` onto
`from_str("a")` and popping it returns `Some('€')` and restores the
buffer. -/
theorem push_pop_inverse_witness :
    (((RedString.from_str ['a']).push '€').pop).1 = some '€' ∧
      (((RedString.from_str ['a']).push '€').pop).2.data
        = (RedString.from_str ['a']).data ∧
      (((RedString.from_str ['a']).push '€').pop).2.len
        = (RedString.from_str ['a']).len :=
  push_pop_inverse (RedString.from_str ['a']) '€' ⟨['a'], by decide⟩

/-- C6 (counter-evidence): `insert` performs no scalar-boundary check.
Inserting `'a'` at byte index 1 of `from_str("é")` — an offset inside the
two-byte encoding of `'é'` — does not abort: it succeeds and leaves the
buffer's byte region invalid UTF-8, silently violating invariant I1
(contrary to the spec, which demands a fatal abort for non-boundary
indices to `insert`/`insert_str`). -/
theorem insert_skips_boundary_check :
    ∃ s', (RedString.from_str ['é']).insert 1 'a' = some s' ∧
      ¬ Utf8Valid s'.data := by
  refine ⟨⟨[195, 97, 169], 3⟩, by decide, ?_⟩
  rintro ⟨cs, hcs⟩
  have h1 := decodeUtf8_encodeStr cs
  rw [← hcs] at h1
  have h2 : decodeUtf8 [195, 97, 169] = none := by decide
  rw [h2] at h1
  exact Option.noConfusion h1

/-- C7: calling `remove` with `idx` equal to the current content length is
a fatal usage error: the operation aborts (the explicit panic
`cannot remove a char from the end of a string`, modelled as `none`)
rather than returning an empty or default result. -/
theorem remove_at_length_aborts (s : RedString) : s.remove s.len = none := by
  rw [RedString.remove]
  split
  · simp [RedString.len, List.drop_length, decodeOne]
  · rfl

/-- C8: on a buffer with valid UTF-8 content, `pop()` returns `None`
exactly when the buffer is empty — leaving the buffer untouched, as a
normal non-fatal result — and on a non-empty buffer it returns `Some` of
the last scalar value of the content and truncates the length by that
scalar's encoded byte count. -/
theorem pop_none_iff_empty (s : RedString) (h : Utf8Valid s.data) :
    ((s.pop).1 = none ↔ s.data = []) ∧
      (s.data = [] → s.pop = (none, s)) ∧
      ∀ c, (s.pop).1 = some c →
        ∃ cs, decodeUtf8 s.data = some cs ∧ cs.getLast? = some c ∧
          (s.pop).2.data = s.data.take (s.data.length - utf8Len c) ∧
          (s.pop).2.data.length = s.data.length - utf8Len c := by
  obtain ⟨cs, hdata⟩ := h
  rcases List.eq_nil_or_concat cs with hnil | ⟨cs', c0, hconcat⟩
  · subst hnil
    rw [encodeStr] at hdata
    have hpop := pop_eq_nil s hdata
    rw [hpop]
    exact ⟨by simp [hdata], fun _ => rfl, fun c hc => by simp at hc⟩
  · have hconcat' : cs = cs' ++ [c0] := by simpa using hconcat
    subst hconcat'
    have hpop := pop_eq_concat s cs' c0 hdata
    have hshape : s.data = encodeStr cs' ++ encodeChar c0 := by
      rw [hdata, encodeStr_append, encodeStr, encodeStr, List.append_nil]
    have hne : s.data ≠ [] := by
      obtain ⟨b, bs, hb, _⟩ := encodeChar_head c0
      rw [hshape, hb]
      simp
    rw [hpop]
    refine ⟨by simp [hne], fun habs => absurd habs hne, fun c hc => ?_⟩
    simp only [Option.some.injEq] at hc
    obtain rfl : c = c0 := hc.symm
    refine ⟨cs' ++ [c], by rw [hdata, decodeUtf8_encodeStr], by simp, ?_, ?_⟩
    · rw [hshape]
      simp [encodeChar_length]
    · rw [hshape]
      simp [encodeChar_length]

/-- Witness for C8: on `from_str("a")` (non-empty) `pop` returns
`Some('a')` with the stated truncation, and the `None`-iff-empty
equivalence holds. -/
theorem pop_none_iff_empty_witness :
    (((RedString.from_str ['a']).pop).1 = none ↔
        (RedString.from_str ['a']).data = []) ∧
      ((RedString.from_str ['a']).data = [] →
        (RedString.from_str ['a']).pop = (none, RedString.from_str ['a'])) ∧
      ∀ c, ((RedString.from_str ['a']).pop).1 = some c →
        ∃ cs, decodeUtf8 (RedString.from_str ['a']).data = some cs ∧
          cs.getLast? = some c ∧
          ((RedString.from_str ['a']).pop).2.data
            = (RedString.from_str ['a']).data.take
                ((RedString.from_str ['a']).data.length - utf8Len c) ∧
          ((RedString.from_str ['a']).pop).2.data.length
            = (RedString.from_str ['a']).data.length - utf8Len c :=
  pop_none_iff_empty (RedString.from_str ['a']) ⟨['a'], by decide⟩

/-- C9: for every buffer state, `clear()` sets the length to 0 (the
content becomes empty) while leaving the capacity — the retained
allocation — unchanged. -/
theorem clear_zeroes_length_keeps_capacity (s : RedString) :
    (s.clear).len = 0 ∧ (s.clear).data = [] ∧ (s.clear).cap = s.cap :=
  ⟨rfl, rfl, rfl⟩

/-- C10: the ownership-transfer conversion converts the byte length to the
foreign runtime's native length type (`c_long`, an `i64`) with an
unchecked unwrap: it succeeds exactly when the length fits that type and
aborts (panics, modelled `none`) when the length exceeds its range. -/
theorem into_rstring_length_guard (s : RedString) :
    (into_rstring s).isSome = true ↔ s.data.length ≤ c_long_max := by
  rw [into_rstring]
  by_cases h : s.data.length ≤ c_long_max <;> simp [h]

end Redrs
